import Mathlib

/-!
Shallow embedding of the cpputils queue and string-interning sources, with
theorems checking the natural-language specification against them.

Conventions used throughout:
* C++ `size_t` values are modelled as `Nat`; where the source subtracts two
  `size_t` values (which wraps modulo 2^64), the model writes the wrap
  explicitly as `(a + (2^64 - b)) % 2^64`.
* `int64_t` values (the work-stealing deque's counters) are modelled as `Int`.
* `x & mask` on an unsigned value is modelled as `x &&& mask`; on an `int64_t`
  with `mask = 2^k - 1` two's-complement AND equals the non-negative residue,
  modelled as `(x % 2^k).toNat`.
* All operations are given their sequential (single-thread) semantics: each
  C++ member function body runs without interference, so every
  `compare_exchange` whose expected value was loaded in the same call
  succeeds on its first attempt and every retry loop runs exactly once.
* A C++ out-parameter function `bool f(T& result)` is modelled as returning
  the new state together with `Option` of the result (`none` = returned
  `false`, result untouched).
-/

namespace CppUtils

/-- Two's-complement subtraction of `size_t` values: the value of `a - b`
in C++ when `a` and `b` are `size_t` (64-bit, `b ≤ 2^64`). -/
def subMod64 (a b : Nat) : Nat :=
  (a + (2 ^ 64 - b)) % 2 ^ 64

/-! ## Queue.h: `SPSCQueue<T, Capacity>` and `SPMCQueue<T, Capacity>`

Both classes keep `head`, `tail`, a `std::vector<T> data` of length
`Capacity`, and `mask = Capacity - 1`.  The state is shared between the two
classes, whose member functions are embedded separately below. -/

/-- State of a `SPSCQueue<T, Capacity>` or `SPMCQueue<T, Capacity>` from
`Queue.h`: `cap` is the template parameter `Capacity`, `data` the slot
vector (length `cap`), `head` and `tail` the atomic counters. -/
structure RingQueue (α : Type) where
  cap : Nat
  data : List α
  head : Nat
  tail : Nat
deriving Repr, DecidableEq

namespace SPSCQueue

/-- The condition under which the `SPSCQueue` constructor throws
`std::invalid_argument`: `Capacity & mask` is nonzero, where
`mask = Capacity - 1`. -/
def ctorThrows (capacity : Nat) : Bool :=
  capacity &&& (capacity - 1) ≠ 0

/-- The queue produced by the `SPSCQueue` constructor when it does not
throw: `data.resize(Capacity)` (slots default-initialised), `head = 0`,
`tail = 0`.  `d` is the default-constructed element. -/
def mk (α : Type) (capacity : Nat) (d : α) : RingQueue α :=
  { cap := capacity, data := List.replicate capacity d, head := 0, tail := 0 }

/-- `SPSCQueue::enqueue` (Queue.h lines 108-120), sequential semantics: the
`compare_exchange_weak` on `tail` succeeds on the first iteration, so the
`while (true)` loop body runs once. -/
def enqueue (q : RingQueue α) (value : α) : RingQueue α × Bool :=
  let currentTail := q.tail
  let nextTail := (currentTail + 1) &&& (q.cap - 1)
  if nextTail = q.head then (q, false)
  else ({ q with data := q.data.set currentTail value, tail := nextTail }, true)

/-- `SPSCQueue::dequeue` (Queue.h lines 128-141), sequential semantics:
the `compare_exchange_weak` on `head` succeeds on the first iteration.
Returns `none` where the C++ returns `false` (out-parameter untouched). -/
def dequeue [Inhabited α] (q : RingQueue α) : RingQueue α × Option α :=
  let currentHead := q.head
  if currentHead = q.tail then (q, none)
  else
    let result := q.data.getD currentHead default
    let nextHead := (currentHead + 1) &&& (q.cap - 1)
    ({ q with head := nextHead }, some result)

/-- `SPSCQueue::empty` (Queue.h lines 143-145). -/
def empty (q : RingQueue α) : Bool :=
  q.head = q.tail

/-- `SPSCQueue::full` (Queue.h lines 147-151). -/
def full (q : RingQueue α) : Bool :=
  (q.tail + 1) &&& (q.cap - 1) = q.head

/-- `SPSCQueue::size` (Queue.h lines 153-157):
`(currentTail - currentHead + Capacity) & mask` in `size_t` arithmetic. -/
def size (q : RingQueue α) : Nat :=
  (subMod64 q.tail q.head + q.cap) % 2 ^ 64 &&& (q.cap - 1)

/-- `SPSCQueue::capacity` (Queue.h lines 159-161): returns the template
parameter `Capacity` itself. -/
def capacity (q : RingQueue α) : Nat :=
  q.cap

end SPSCQueue

namespace SPMCQueue

/-- The condition under which the `SPMCQueue` constructor throws
(Queue.h lines 11-18); same test as the SPSC constructor. -/
def ctorThrows (capacity : Nat) : Bool :=
  capacity &&& (capacity - 1) ≠ 0

/-- The queue produced by the `SPMCQueue` constructor when it does not
throw (Queue.h lines 11-18). -/
def mk (α : Type) (capacity : Nat) (d : α) : RingQueue α :=
  { cap := capacity, data := List.replicate capacity d, head := 0, tail := 0 }

/-- `SPMCQueue::enqueue` (Queue.h lines 20-32), sequential semantics. -/
def enqueue (q : RingQueue α) (value : α) : RingQueue α × Bool :=
  let currentTail := q.tail
  let nextTail := (currentTail + 1) &&& (q.cap - 1)
  if nextTail = q.head then (q, false)
  else ({ q with data := q.data.set currentTail value, tail := nextTail }, true)

/-- `SPMCQueue::dequeue` (Queue.h lines 40-53), sequential semantics. -/
def dequeue [Inhabited α] (q : RingQueue α) : RingQueue α × Option α :=
  let currentHead := q.head
  if currentHead = q.tail then (q, none)
  else
    let result := q.data.getD currentHead default
    let nextHead := (currentHead + 1) &&& (q.cap - 1)
    ({ q with head := nextHead }, some result)

/-- `SPMCQueue::steal` (Queue.h lines 55-68), sequential semantics; the
body is textually identical to `SPMCQueue::dequeue`. -/
def steal [Inhabited α] (q : RingQueue α) : RingQueue α × Option α :=
  let currentHead := q.head
  if currentHead = q.tail then (q, none)
  else
    let result := q.data.getD currentHead default
    let nextHead := (currentHead + 1) &&& (q.cap - 1)
    ({ q with head := nextHead }, some result)

/-- `SPMCQueue::capacity` (Queue.h lines 86-88): returns `Capacity`. -/
def capacity (q : RingQueue α) : Nat :=
  q.cap

end SPMCQueue

/-! ## include/SpmcQueue.h: the bounded work-stealing deque

`SpmcQueue<T, LogSize>` stores pointer-sized handles (`nullptr` = no item,
modelled as `none`) in a buffer of `BufferSize_ = 2^LogSize` slots, with
`int64_t` counters `head_` and `tail_`.  `x & BufferMask_` on an `int64_t`
equals the non-negative residue `x mod 2^LogSize` in two's complement,
modelled as `(x % 2^LogSize).toNat`. -/

/-- State of a `SpmcQueue<T, LogSize>` from `include/SpmcQueue.h`.
`buffer` has length `2^logSize`; a slot holds `none` until first written
(the C++ slots are uninitialised atomics, read only after being stored). -/
structure SpmcQueue (α : Type) where
  logSize : Nat
  buffer : List (Option α)
  head : Int
  tail : Int
deriving Repr, DecidableEq

namespace SpmcQueue

/-- `BufferSize_ = int64_t{1} << LogSize`. -/
def bufferSize (q : SpmcQueue α) : Int :=
  (2 : Int) ^ q.logSize

/-- Slot index `i & BufferMask_` of an `int64_t` counter value `i`. -/
def idx (q : SpmcQueue α) (i : Int) : Nat :=
  (i % (2 : Int) ^ q.logSize).toNat

/-- A default-constructed `SpmcQueue<T, LogSize>`: both counters zero,
buffer slots not yet stored to. -/
def construct (α : Type) (logSize : Nat) : SpmcQueue α :=
  { logSize := logSize, buffer := List.replicate (2 ^ logSize) none,
    head := 0, tail := 0 }

/-- `SpmcQueue::empty` (SpmcQueue.h lines 132-137). -/
def empty (q : SpmcQueue α) : Bool :=
  decide (q.tail ≤ q.head)

/-- `SpmcQueue::size` (SpmcQueue.h lines 140-145):
`static_cast<size_t>(tail >= head ? tail - head : 0)`. -/
def size (q : SpmcQueue α) : Nat :=
  if q.tail ≥ q.head then (q.tail - q.head).toNat else 0

/-- `SpmcQueue::try_push` (SpmcQueue.h lines 148-168). -/
def try_push (q : SpmcQueue α) (o : α) : SpmcQueue α × Bool :=
  let tail := q.tail
  let head := q.head
  if tail - head ≥ q.bufferSize - 1 then (q, false)
  else
    ({ q with buffer := q.buffer.set (q.idx tail) (some o), tail := tail + 1 },
     true)

/-- `SpmcQueue::pop` (SpmcQueue.h lines 193-220), sequential semantics:
with no concurrent thief, the strong CAS on `head_` in the
last-item case succeeds. -/
def pop (q : SpmcQueue α) : SpmcQueue α × Option α :=
  let tail := q.tail - 1
  let head := q.head
  if head ≤ tail then
    let item := q.buffer.getD (q.idx tail) none
    if head = tail then
      ({ q with head := head + 1, tail := tail + 1 }, item)
    else
      ({ q with tail := tail }, item)
  else
    ({ q with tail := tail + 1 }, none)

/-- `SpmcQueue::steal` (SpmcQueue.h lines 223-241), sequential semantics:
with no contending consumer the strong CAS on `head_` succeeds. -/
def steal (q : SpmcQueue α) : SpmcQueue α × Option α :=
  let head := q.head
  let tail := q.tail
  if head < tail then
    let item := q.buffer.getD (q.idx head) none
    ({ q with head := head + 1 }, item)
  else (q, none)

/-- `SpmcQueue::capacity` (SpmcQueue.h lines 243-247):
`static_cast<size_t>(BufferSize_ - 1)`. -/
def capacity (q : SpmcQueue α) : Nat :=
  (q.bufferSize - 1).toNat

end SpmcQueue

/-! ## include/SpscQueue.h: `cpputils::SpscQueue<T, INITIAL_CAPACITY>`

The growable SPSC ring.  `capacity_` is a mutable field; `head_` and `tail_`
are stored wrapped (`& (capacity_ - 1)` applied before every store).  The
buffer slot at index `i` holds a constructed `T` or not; this is modelled
as `Option α` (`some` = a `T` is currently alive in the slot).  The member
functions open with `auto head_ = head_.load(); auto tail_ = tail_.load();`,
locals that shadow the members they read; the embedding reads them as
snapshot loads of the atomic members with the closing `store` calls going
to the members, the evident intent of the code. -/

/-- State of a `cpputils::SpscQueue<T>`: `cap` is `capacity_`, `buffer`
the slot vector (length `cap`), `head` and `tail` the counters. -/
structure SpscQueue (α : Type) where
  cap : Nat
  buffer : List (Option α)
  head : Nat
  tail : Nat
deriving Repr, DecidableEq

namespace SpscQueue

/-- The constructor's assertions (SpscQueue.h lines 37-41):
`INITIAL_CAPACITY > 0` and `INITIAL_CAPACITY` a power of two. -/
def ctorAssertOk (c : Nat) : Bool :=
  decide (0 < c) && (c &&& (c - 1) == 0)

/-- The queue produced by the constructor: counters zero, `buffer_` of
`capacity_` slots with no queue element constructed yet. -/
def construct (α : Type) (c : Nat) : SpscQueue α :=
  { cap := c, buffer := List.replicate c none, head := 0, tail := 0 }

/-- `SpscQueue::empty` (SpscQueue.h lines 72-74). -/
def empty (q : SpscQueue α) : Bool :=
  q.head = q.tail

/-- `SpscQueue::full` (SpscQueue.h lines 76-78). -/
def full (q : SpscQueue α) : Bool :=
  (q.tail + 1) &&& (q.cap - 1) = q.head

/-- `SpscQueue::size` (SpscQueue.h lines 80-82):
`(tail_ - head_) & (capacity_ - 1)` in `size_t` arithmetic. -/
def size (q : SpscQueue α) : Nat :=
  subMod64 q.tail q.head &&& (q.cap - 1)

/-- `SpscQueue::capacity` (SpscQueue.h lines 84-86): `capacity_ - 1`. -/
def capacity (q : SpscQueue α) : Nat :=
  q.cap - 1

/-- One attempt of `SpscQueue::inner_enqueue` (SpscQueue.h lines 168-190):
the non-full fast path, `none` when the buffer is full. -/
def enqueueAttempt (q : SpscQueue α) (v : α) : Option (SpscQueue α) :=
  let nextTail := (q.tail + 1) &&& (q.cap - 1)
  if nextTail ≠ q.head then
    some { q with
      buffer := q.buffer.set (q.tail &&& (q.cap - 1)) (some v),
      tail := nextTail }
  else none

/-- `SpscQueue::try_enqueue` = `inner_enqueue<CannotAlloc>`
(SpscQueue.h lines 88-99, 168-190). -/
def try_enqueue (q : SpscQueue α) (v : α) : SpscQueue α × Bool :=
  match enqueueAttempt q v with
  | some q' => (q', true)
  | none => (q, false)

/-- `SpscQueue::resize` (SpscQueue.h lines 192-208): double `capacity_`,
move the occupied range `head_ .. head_+size-1` (ring-unwrapped) to the
front of the new buffer, re-publish `head_ = 0`, `tail_ = size`. -/
def resize (q : SpscQueue α) : SpscQueue α :=
  let newCapacity := q.cap * 2
  let sz := subMod64 q.tail q.head &&& (q.cap - 1)
  let newBuffer := (List.range newCapacity).map fun i =>
    if i < sz then q.buffer.getD ((q.head + i) &&& (q.cap - 1)) none else none
  { cap := newCapacity, buffer := newBuffer, head := 0, tail := sz }

/-- `SpscQueue::enqueue` = `inner_enqueue<CanAlloc>` (SpscQueue.h lines
101-112, 168-190): on a full buffer, `resize()` then re-attempt.  The C++
recurses; for any power-of-two `capacity_` the attempt after one resize
always succeeds (proved below as `SpscQueue.resize_attempt_isSome`), so a
single retry is the exact behaviour on every constructible queue. -/
def enqueue (q : SpscQueue α) (v : α) : SpscQueue α × Bool :=
  match enqueueAttempt q v with
  | some q' => (q', true)
  | none =>
    match enqueueAttempt (resize q) v with
    | some q' => (q', true)
    | none => (resize q, false)

/-- `SpscQueue::try_dequeue` (SpscQueue.h lines 114-133).  Success returns
`some` of the slot's content (the C++ moves the value out and destroys the
slot, modelled by clearing the slot to `none`); `none` models returning
`false`. -/
def try_dequeue (q : SpscQueue α) : SpscQueue α × Option (Option α) :=
  if q.head ≠ q.tail then
    let element := q.buffer.getD (q.head &&& (q.cap - 1)) none
    ({ q with
        buffer := q.buffer.set (q.head &&& (q.cap - 1)) none,
        head := (q.head + 1) &&& (q.cap - 1) },
     some element)
  else (q, none)

end SpscQueue

/-! ## StringIntern.h: FNV-1a hashing and the interning pool

A C++ string is modelled as the list of its character values after
`static_cast<uint32_t>` (for plain ASCII text these are the byte values).
The pool `pool_` maps a 32-bit hash to a weakly held interned string; the
custom deleter erases the entry when the last owner releases it, so in the
sequential model every entry present is alive.  Entries are an association
list keyed on the hash. -/

/-- A C++ string's characters, each already converted to `uint32_t`. -/
abbrev Text := List Nat

/-- The `constexpr` FNV-1a hash (StringIntern.h lines 16-23), 32-bit. -/
def fnv1a (s : Text) : Nat :=
  s.foldl (fun hash c => ((hash ^^^ c % 2 ^ 32) * 0x01000193) % 2 ^ 32)
    0x811c9dc5

/-- The runtime FNV-1a hash (StringIntern.h lines 25-32); textually the
same loop as `fnv1a`. -/
def fnv1a_runtime (s : Text) : Nat :=
  s.foldl (fun hash c => ((hash ^^^ c % 2 ^ 32) * 0x01000193) % 2 ^ 32)
    0x811c9dc5

namespace StringPool

/-- The pool's map `pool_ : hash -> weak_ptr<const String>`, with alive
entries only (the deleter erases an entry as its string dies). -/
abbrev Pool := List (Nat × Text)

/-- `StringPool::intern` (StringIntern.h lines 207-222): look the hash up;
if present return the existing string, otherwise insert the new one.
Returns the new pool and the string the returned handle carries. -/
def intern (pool : Pool) (s : Text) (hash : Nat) : Pool × Text :=
  match pool.lookup hash with
  | some existing => (pool, existing)
  | none => ((hash, s) :: pool, s)

/-- `StringPool::getStringByHash` (StringIntern.h lines 104-111). -/
def getStringByHash (pool : Pool) (hash : Nat) : Option Text :=
  pool.lookup hash

/-- `StringPool::isStringIntern` (StringIntern.h lines 100-102). -/
def isStringIntern (pool : Pool) (s : Text) : Bool :=
  (getStringByHash pool (fnv1a_runtime s)).isSome

end StringPool


/-! ## Abstraction layer used by the verification

For each queue model: an occupancy count and an abstraction to the list of
currently held values (FIFO order), together with well-formedness
invariants and single-threaded driver functions. -/

namespace SPSCQueue

/-- Number of occupied slots of a `Queue.h` ring queue, as a function of
the stored counters. -/

def occupied (q : RingQueue α) : Nat :=
  (q.tail + q.cap - q.head) % q.cap


/-- Abstraction function: the queue's contents in FIFO order, from the
`head` slot to the slot before `tail`. -/

def toList [Inhabited α] (q : RingQueue α) : List α :=
  (List.range (occupied q)).map fun i => q.data.getD ((q.head + i) % q.cap) default


/-- Well-formedness of a `Queue.h` ring queue with `Capacity = 2^c`. -/

structure Inv (c : Nat) (q : RingQueue α) : Prop where
  hcap : q.cap = 2 ^ c
  hlen : q.data.length = q.cap
  hhead : q.head < q.cap
  htail : q.tail < q.cap


/-- One-step operations of the single-threaded SPSC client. -/

inductive QOp (α : Type) where
  | enq (v : α)
  | deq
deriving Repr, DecidableEq


/-- Run a list of operations against the `Queue.h` SPSC queue, collecting
every dequeue's reported result. -/

def runSPSC [Inhabited α] (q : RingQueue α) : List (QOp α) → List (Option α)
  | [] => []
  | QOp.enq v :: rest => runSPSC (enqueue q v).1 rest
  | QOp.deq :: rest =>
    let r := dequeue q
    r.2 :: runSPSC r.1 rest


/-- The specification-level queue: a plain list holding at most `cap1`
items; `enq` appends at the back when room remains, `deq` takes from the
front.  Its dequeue outputs are strict FIFO by construction. -/

def runSpec (cap1 : Nat) : List α → List (QOp α) → List (Option α)
  | _, [] => []
  | l, QOp.enq v :: rest =>
    runSpec cap1 (if l.length < cap1 then l ++ [v] else l) rest
  | l, QOp.deq :: rest =>
    match l with
    | [] => none :: runSpec cap1 [] rest
    | x :: xs => some x :: runSpec cap1 xs rest


def enqueueList (q : RingQueue α) : List α → RingQueue α × Bool
  | [] => (q, true)
  | v :: vs =>
    let r := enqueue q v
    let rest := enqueueList r.1 vs
    (rest.1, r.2 && rest.2)


end SPSCQueue

namespace SpscQueue

/-- Number of live elements of a `cpputils::SpscQueue`, as a function of the
stored (wrapped) counters. -/

def occupied (q : SpscQueue α) : Nat :=
  (q.tail + q.cap - q.head) % q.cap


/-- Abstraction function: the constructed slots from `head_` up to `tail_`
in FIFO order (each is `some` of the stored element on reachable states). -/

def toList (q : SpscQueue α) : List (Option α) :=
  (List.range (occupied q)).map fun i => q.buffer.getD ((q.head + i) % q.cap) none


/-- Well-formedness of a `cpputils::SpscQueue` whose `capacity_ = 2^c`. -/

structure Inv (c : Nat) (q : SpscQueue α) : Prop where
  hcap : q.cap = 2 ^ c
  hlen : q.buffer.length = q.cap
  hhead : q.head < q.cap
  htail : q.tail < q.cap


/-- Repeated `inner_enqueue<CanAlloc>` over a list of values. -/

def enqueueAll (q : SpscQueue α) : List α → SpscQueue α × Bool
  | [] => (q, true)
  | v :: vs =>
    let r := enqueue q v
    let rest := enqueueAll r.1 vs
    (rest.1, r.2 && rest.2)


/-- Performing `n` consecutive `try_dequeue` calls, collecting each call's
reported result. -/

def dequeueN (q : SpscQueue α) : Nat → SpscQueue α × List (Option (Option α))
  | 0 => (q, [])
  | n + 1 =>
    let r := try_dequeue q
    let rest := dequeueN r.1 n
    (rest.1, r.2 :: rest.2)


/-- Repeated `try_enqueue` (`inner_enqueue<CannotAlloc>`) over a list. -/

def tryEnqueueAll (q : SpscQueue α) : List α → SpscQueue α × Bool
  | [] => (q, true)
  | v :: vs =>
    let r := try_enqueue q v
    let rest := tryEnqueueAll r.1 vs
    (rest.1, r.2 && rest.2)


end SpscQueue


/-! ## Arithmetic helpers -/

/-! ## Arithmetic helpers -/


theorem and_mask_eq_mod (x c : Nat) : x &&& (2 ^ c - 1) = x % 2 ^ c :=
  Nat.and_pow_two_sub_one_eq_mod x c


theorem subMod64_mod {c : Nat} (hc : c ≤ 64) (t h : Nat) (hh : h ≤ 2 ^ c) :
    subMod64 t h % 2 ^ c = (t + 2 ^ c - h) % 2 ^ c := by
  have hdvd : 2 ^ c ∣ 2 ^ 64 := pow_dvd_pow 2 hc
  have hle : 2 ^ c ≤ 2 ^ 64 := Nat.pow_le_pow_right (by norm_num) hc
  have hdvd' : 2 ^ c ∣ 2 ^ 64 - 2 ^ c := Nat.dvd_sub' hdvd dvd_rfl
  obtain ⟨j, hj⟩ := hdvd'
  unfold subMod64
  rw [Nat.mod_mod_of_dvd _ hdvd,
    show t + (2 ^ 64 - h) = (t + 2 ^ c - h) + 2 ^ c * j by omega,
    Nat.add_mul_mod_self_left]


theorem addIdx_inj {cap h i j : Nat} (hi : i < cap) (hj : j < cap)
    (he : (h + i) % cap = (h + j) % cap) : i = j := by
  have h1 : i ≡ j [MOD cap] := Nat.ModEq.add_left_cancel' h he
  have h2 : i % cap = j % cap := h1
  rwa [Nat.mod_eq_of_lt hi, Nat.mod_eq_of_lt hj] at h2




namespace SPSCQueue

theorem Inv.pos {c : Nat} {q : RingQueue α} (inv : Inv c q) : 0 < q.cap :=
  inv.hcap ▸ Nat.pos_pow_of_pos c (by norm_num)


theorem occupied_eq (q : RingQueue α) (hh : q.head < q.cap) (ht : q.tail < q.cap) :
    occupied q = if q.head ≤ q.tail then q.tail - q.head
      else q.tail + q.cap - q.head := by
  unfold occupied
  rcases le_or_lt q.head q.tail with hle | hlt
  · rw [if_pos hle, show q.tail + q.cap - q.head = (q.tail - q.head) + q.cap by omega,
      Nat.add_mod_right, Nat.mod_eq_of_lt (by omega)]
  · rw [if_neg (by omega), Nat.mod_eq_of_lt (by omega)]


theorem occupied_lt (q : RingQueue α) (hpos : 0 < q.cap) : occupied q < q.cap :=
  Nat.mod_lt _ hpos


theorem occupied_eq_zero (q : RingQueue α) (hh : q.head < q.cap)
    (ht : q.tail < q.cap) : occupied q = 0 ↔ q.head = q.tail := by
  rw [occupied_eq q hh ht]
  split <;> omega


theorem head_add_occupied (q : RingQueue α) (hh : q.head < q.cap)
    (ht : q.tail < q.cap) : (q.head + occupied q) % q.cap = q.tail := by
  unfold occupied
  rw [Nat.add_mod_mod, show q.head + (q.tail + q.cap - q.head) = q.tail + q.cap by omega,
    Nat.add_mod_right, Nat.mod_eq_of_lt ht]


theorem toList_length [Inhabited α] (q : RingQueue α) :
    (toList q).length = occupied q := by
  simp [toList]


theorem toList_eq_nil [Inhabited α] (q : RingQueue α) (h : q.head = q.tail) :
    toList q = [] := by
  unfold toList occupied
  rw [h, show q.tail + q.cap - q.tail = q.cap by omega, Nat.mod_self]
  rfl


/-- The `Queue.h` enqueue fails exactly on a full ring. -/

theorem enqueue_full_iff {c : Nat} (q : RingQueue α) (inv : Inv c q) :
    (q.tail + 1) % q.cap = q.head ↔ occupied q = q.cap - 1 := by
  have hh := inv.hhead
  have ht := inv.htail
  rw [occupied_eq q hh ht]
  rcases Nat.lt_or_ge (q.tail + 1) q.cap with h1 | h1
  · rw [Nat.mod_eq_of_lt h1]
    split <;> omega
  · rw [show q.tail + 1 = q.cap by omega, Nat.mod_self]
    split <;> omega


theorem enqueue_eq_mod {c : Nat} (q : RingQueue α) (hcap : q.cap = 2 ^ c) (v : α) :
    enqueue q v =
      if (q.tail + 1) % q.cap = q.head then (q, false)
      else ({ q with data := q.data.set q.tail v, tail := (q.tail + 1) % q.cap },
        true) := by
  simp only [enqueue, hcap, and_mask_eq_mod]


theorem enqueue_fail {c : Nat} (q : RingQueue α) (inv : Inv c q) (v : α)
    (hfull : occupied q = q.cap - 1) : enqueue q v = (q, false) := by
  rw [enqueue_eq_mod q inv.hcap, if_pos ((enqueue_full_iff q inv).mpr hfull)]


theorem enqueue_spec {c : Nat} [Inhabited α] (q : RingQueue α) (inv : Inv c q)
    (v : α) (hroom : occupied q < q.cap - 1) :
    (enqueue q v).2 = true ∧ Inv c (enqueue q v).1 ∧
      toList (enqueue q v).1 = toList q ++ [v] ∧
      (enqueue q v).1.head = q.head ∧ (enqueue q v).1.cap = q.cap := by
  have hh := inv.hhead
  have ht := inv.htail
  have hpos := inv.pos
  have hcond : ¬ ((q.tail + 1) % q.cap = q.head) := by
    rw [enqueue_full_iff q inv]; omega
  have henq : enqueue q v =
      ({ q with data := q.data.set q.tail v, tail := (q.tail + 1) % q.cap }, true) := by
    rw [enqueue_eq_mod q inv.hcap, if_neg hcond]
  set q' : RingQueue α :=
    { q with data := q.data.set q.tail v, tail := (q.tail + 1) % q.cap } with hq'
  have hh' : q'.head < q'.cap := hh
  have ht' : q'.tail < q'.cap := Nat.mod_lt _ hpos
  have hinv' : Inv c q' :=
    ⟨inv.hcap, by simpa using inv.hlen, hh', ht'⟩
  have hocc' : occupied q' = occupied q + 1 := by
    have h1 := occupied_eq q hh ht
    have h2 := occupied_eq q' hh' ht'
    have hq'h : q'.head = q.head := rfl
    have hq'c : q'.cap = q.cap := rfl
    have hq't : q'.tail = (q.tail + 1) % q.cap := rfl
    rcases Nat.lt_or_ge (q.tail + 1) q.cap with hlt | hge
    · rw [hq't, Nat.mod_eq_of_lt hlt] at h2
      rw [hq'h, hq'c] at h2
      split at h1 <;> split at h2 <;> omega
    · rw [hq't, show q.tail + 1 = q.cap by omega, Nat.mod_self] at h2
      rw [hq'h, hq'c] at h2
      split at h1 <;> split at h2 <;> omega
  refine ⟨by rw [henq], by rw [henq]; exact hinv', ?_, by rw [henq], by rw [henq]⟩
  rw [henq]
  show toList q' = toList q ++ [v]
  unfold toList
  rw [hocc', List.range_succ, List.map_append]
  have htailidx : (q.head + occupied q) % q.cap = q.tail := head_add_occupied q hh ht
  congr 1
  · apply List.map_congr_left
    intro i hi
    rw [List.mem_range] at hi
    have hne : q.tail ≠ (q'.head + i) % q'.cap := by
      show ¬ (q.tail = (q.head + i) % q.cap)
      intro he
      have : i = occupied q := by
        refine addIdx_inj (h := q.head) (Nat.lt_of_lt_of_le hi (by omega))
          (occupied_lt q hpos) ?_
        rw [htailidx, ← he]
      omega
    show (q.data.set q.tail v).getD ((q'.head + i) % q'.cap) default
        = q.data.getD ((q.head + i) % q.cap) default
    rw [List.getD_eq_getElem?_getD, List.getD_eq_getElem?_getD,
      List.getElem?_set_ne hne]
  · show [ (q.data.set q.tail v).getD ((q'.head + occupied q) % q'.cap) default ] = [v]
    have : (q'.head + occupied q) % q'.cap = q.tail := htailidx
    rw [this, List.getD_eq_getElem?_getD, List.getElem?_set_self (by rw [inv.hlen]; exact ht)]
    rfl


theorem dequeue_eq_mod {c : Nat} [Inhabited α] (q : RingQueue α)
    (hcap : q.cap = 2 ^ c) :
    dequeue q =
      if q.head = q.tail then (q, none)
      else ({ q with head := (q.head + 1) % q.cap },
        some (q.data.getD q.head default)) := by
  simp only [dequeue, hcap, and_mask_eq_mod]


theorem dequeue_empty_spec {c : Nat} [Inhabited α] (q : RingQueue α)
    (inv : Inv c q) (h : q.head = q.tail) : dequeue q = (q, none) := by
  rw [dequeue_eq_mod q inv.hcap, if_pos h]


theorem dequeue_spec {c : Nat} [Inhabited α] (q : RingQueue α) (inv : Inv c q)
    (hne : q.head ≠ q.tail) :
    (dequeue q).2 = some (q.data.getD q.head default) ∧ Inv c (dequeue q).1 ∧
      toList q = q.data.getD q.head default :: toList (dequeue q).1 ∧
      (dequeue q).1.cap = q.cap := by
  have hh := inv.hhead
  have ht := inv.htail
  have hpos := inv.pos
  have hdeq : dequeue q =
      ({ q with head := (q.head + 1) % q.cap }, some (q.data.getD q.head default)) := by
    rw [dequeue_eq_mod q inv.hcap, if_neg hne]
  set q' : RingQueue α := { q with head := (q.head + 1) % q.cap } with hq'
  have hh' : q'.head < q'.cap := Nat.mod_lt _ hpos
  have hinv' : Inv c q' := ⟨inv.hcap, inv.hlen, hh', ht⟩
  have hocc : occupied q ≠ 0 := fun h0 => hne ((occupied_eq_zero q hh ht).mp h0)
  have hocc' : occupied q' = occupied q - 1 := by
    have h1 := occupied_eq q hh ht
    have h2 := occupied_eq q' hh' ht
    rw [show q'.tail = q.tail from rfl, show q'.cap = q.cap from rfl] at h2
    rcases Nat.lt_or_ge (q.head + 1) q.cap with hlt | hge
    · rw [show q'.head = (q.head + 1) % q.cap from rfl, Nat.mod_eq_of_lt hlt] at h2
      split at h1 <;> split at h2 <;> omega
    · rw [show q'.head = (q.head + 1) % q.cap from rfl,
        show q.head + 1 = q.cap by omega, Nat.mod_self] at h2
      split at h1 <;> split at h2 <;> omega
  refine ⟨by rw [hdeq], by rw [hdeq]; exact hinv', ?_, by rw [hdeq]⟩
  rw [hdeq]
  show toList q = q.data.getD q.head default :: toList q'
  unfold toList
  rw [hocc',
    show occupied q = (occupied q - 1) + 1 by omega,
    List.range_succ_eq_map, List.map_cons, List.map_map]
  congr 1
  · rw [show (q.head + 0) % q.cap = q.head from by
      rw [Nat.add_zero, Nat.mod_eq_of_lt hh]]
  · apply List.map_congr_left
    intro i hi
    show q.data.getD ((q.head + Nat.succ i) % q.cap) default
      = q'.data.getD ((q'.head + i) % q'.cap) default
    have : (q'.head + i) % q'.cap = (q.head + Nat.succ i) % q.cap := by
      show ((q.head + 1) % q.cap + i) % q.cap = _
      rw [Nat.mod_add_mod]
      congr 1
      omega
    rw [this]


theorem runSPSC_refines {c : Nat} [Inhabited α] (ops : List (QOp α)) :
    ∀ (q : RingQueue α), Inv c q →
      runSPSC q ops = runSpec (q.cap - 1) (toList q) ops := by
  induction ops with
  | nil => intro q _; cases toList q <;> rfl
  | cons op rest ih =>
    intro q inv
    have hpos := inv.pos
    have hocclt := occupied_lt q hpos
    match op with
    | QOp.enq v =>
      show runSPSC (enqueue q v).1 rest
        = runSpec (q.cap - 1) (if (toList q).length < q.cap - 1 then toList q ++ [v] else toList q) rest
      rcases Nat.lt_or_ge (occupied q) (q.cap - 1) with hroom | hfull
      · obtain ⟨_, hinv', htl, _, hcap'⟩ := enqueue_spec q inv v hroom
        rw [ih _ hinv', htl, hcap', if_pos (by rw [toList_length]; exact hroom)]
      · have hfull' : occupied q = q.cap - 1 := by omega
        rw [enqueue_fail q inv v hfull', ih q inv,
          if_neg (by rw [toList_length]; omega)]
    | QOp.deq =>
      rcases Decidable.em (q.head = q.tail) with he | hne
      · rw [show runSPSC q (QOp.deq :: rest)
            = (dequeue q).2 :: runSPSC (dequeue q).1 rest from rfl,
          dequeue_empty_spec q inv he, toList_eq_nil q he]
        show none :: runSPSC q rest = none :: runSpec (q.cap - 1) [] rest
        rw [ih q inv, toList_eq_nil q he]
      · obtain ⟨hval, hinv', htl, hcap'⟩ := dequeue_spec q inv hne
        rw [show runSPSC q (QOp.deq :: rest)
            = (dequeue q).2 :: runSPSC (dequeue q).1 rest from rfl,
          hval, htl, ih _ hinv', hcap']
        rfl


theorem mk_inv (α : Type) (c : Nat) (d : α) :
    Inv c (SPSCQueue.mk α (2 ^ c) d) :=
  ⟨rfl, by simp [SPSCQueue.mk], Nat.pos_pow_of_pos c (by norm_num),
    Nat.pos_pow_of_pos c (by norm_num)⟩


theorem toList_mk (α : Type) [Inhabited α] (c : Nat) (d : α) :
    toList (SPSCQueue.mk α (2 ^ c) d) = [] :=
  toList_eq_nil _ rfl


theorem enqueueList_spec {c : Nat} [Inhabited α] (vs : List α) :
    ∀ (q : RingQueue α), Inv c q → occupied q + vs.length ≤ q.cap - 1 →
      (enqueueList q vs).2 = true ∧ Inv c (enqueueList q vs).1 ∧
        toList (enqueueList q vs).1 = toList q ++ vs ∧
        (enqueueList q vs).1.cap = q.cap := by
  induction vs with
  | nil => intro q inv _; exact ⟨rfl, inv, by simp [enqueueList], rfl⟩
  | cons v vs ih =>
    intro q inv hroom
    have hlen : (v :: vs).length = vs.length + 1 := rfl
    obtain ⟨hs, hinv', htl, _, hcap'⟩ := enqueue_spec q inv v (by rw [hlen] at hroom; omega)
    have hocc' : occupied (enqueue q v).1 = occupied q + 1 := by
      rw [← toList_length, htl, List.length_append, toList_length]
      rfl
    obtain ⟨hs2, hinv2, htl2, hcap2⟩ := ih (enqueue q v).1 hinv'
      (by rw [hcap', hocc']; rw [hlen] at hroom; omega)
    refine ⟨?_, hinv2, ?_, ?_⟩
    · show ((enqueue q v).2 && (enqueueList (enqueue q v).1 vs).2) = true
      rw [hs, hs2]
      rfl
    · show toList (enqueueList (enqueue q v).1 vs).1 = toList q ++ v :: vs
      rw [htl2, htl, List.append_assoc]
      rfl
    · show (enqueueList (enqueue q v).1 vs).1.cap = q.cap
      rw [hcap2, hcap']


theorem size_eq_occupied {c : Nat} (q : RingQueue α) (inv : Inv c q)
    (hc : c ≤ 64) : size q = occupied q := by
  have hh := inv.hhead
  unfold size occupied
  rw [inv.hcap]
  rw [inv.hcap] at hh
  rw [and_mask_eq_mod, Nat.mod_mod_of_dvd _ (pow_dvd_pow 2 hc), Nat.add_mod_right,
    subMod64_mod hc _ _ (by omega)]


theorem occupied_mk (α : Type) (c : Nat) (d : α) :
    occupied (SPSCQueue.mk α (2 ^ c) d) = 0 := by
  unfold occupied SPSCQueue.mk
  simp



end SPSCQueue

namespace SpscQueue

theorem Inv.pos_g {c : Nat} {q : SpscQueue α} (inv : Inv c q) : 0 < q.cap :=
  inv.hcap ▸ Nat.pos_pow_of_pos c (by norm_num)


theorem occupied_eq_g (q : SpscQueue α) (hh : q.head < q.cap) (ht : q.tail < q.cap) :
    occupied q = if q.head ≤ q.tail then q.tail - q.head
      else q.tail + q.cap - q.head := by
  unfold occupied
  rcases le_or_lt q.head q.tail with hle | hlt
  · rw [if_pos hle, show q.tail + q.cap - q.head = (q.tail - q.head) + q.cap by omega,
      Nat.add_mod_right, Nat.mod_eq_of_lt (by omega)]
  · rw [if_neg (by omega), Nat.mod_eq_of_lt (by omega)]


theorem occupied_lt_g (q : SpscQueue α) (hpos : 0 < q.cap) : occupied q < q.cap :=
  Nat.mod_lt _ hpos


theorem occupied_eq_zero_g (q : SpscQueue α) (hh : q.head < q.cap)
    (ht : q.tail < q.cap) : occupied q = 0 ↔ q.head = q.tail := by
  rw [occupied_eq_g q hh ht]
  split <;> omega


theorem head_add_occupied_g (q : SpscQueue α) (hh : q.head < q.cap)
    (ht : q.tail < q.cap) : (q.head + occupied q) % q.cap = q.tail := by
  unfold occupied
  rw [Nat.add_mod_mod, show q.head + (q.tail + q.cap - q.head) = q.tail + q.cap by omega,
    Nat.add_mod_right, Nat.mod_eq_of_lt ht]


theorem toList_length_g (q : SpscQueue α) : (toList q).length = occupied q := by
  simp [toList]


theorem toList_eq_nil_g (q : SpscQueue α) (h : q.head = q.tail) : toList q = [] := by
  unfold toList occupied
  rw [h, show q.tail + q.cap - q.tail = q.cap by omega, Nat.mod_self]
  rfl


/-- The occupancy after one `size()`-style subtraction: under the invariant
the `size_t` expression `(tail_ - head_) & (capacity_ - 1)` equals the
occupancy. -/

theorem size_eq_occupied_g {c : Nat} (q : SpscQueue α) (inv : Inv c q)
    (hc : c ≤ 64) : size q = occupied q := by
  have hh := inv.hhead
  unfold size occupied
  rw [inv.hcap]
  rw [inv.hcap] at hh
  rw [and_mask_eq_mod, subMod64_mod hc _ _ (by omega)]


theorem attempt_full_iff {c : Nat} (q : SpscQueue α) (inv : Inv c q) :
    (q.tail + 1) % q.cap = q.head ↔ occupied q = q.cap - 1 := by
  have hh := inv.hhead
  have ht := inv.htail
  rw [occupied_eq_g q hh ht]
  rcases Nat.lt_or_ge (q.tail + 1) q.cap with h1 | h1
  · rw [Nat.mod_eq_of_lt h1]
    split <;> omega
  · rw [show q.tail + 1 = q.cap by omega, Nat.mod_self]
    split <;> omega


theorem enqueueAttempt_eq_mod {c : Nat} (q : SpscQueue α) (inv : Inv c q) (v : α) :
    enqueueAttempt q v =
      if (q.tail + 1) % q.cap ≠ q.head then
        some { q with buffer := q.buffer.set q.tail (some v),
                      tail := (q.tail + 1) % q.cap }
      else none := by
  have ht := inv.htail
  simp only [enqueueAttempt, inv.hcap, and_mask_eq_mod]
  rw [Nat.mod_eq_of_lt (a := q.tail) (inv.hcap ▸ ht)]


theorem enqueueAttempt_fail {c : Nat} (q : SpscQueue α) (inv : Inv c q) (v : α)
    (hfull : occupied q = q.cap - 1) : enqueueAttempt q v = none := by
  rw [enqueueAttempt_eq_mod q inv, if_neg]
  intro hne
  exact hne ((attempt_full_iff q inv).mpr hfull)


theorem enqueueAttempt_spec {c : Nat} (q : SpscQueue α) (inv : Inv c q) (v : α)
    (hroom : occupied q < q.cap - 1) :
    ∃ q', enqueueAttempt q v = some q' ∧ Inv c q' ∧
      toList q' = toList q ++ [some v] ∧ q'.head = q.head ∧ q'.cap = q.cap := by
  have hh := inv.hhead
  have ht := inv.htail
  have hpos := inv.pos_g
  have hcond : (q.tail + 1) % q.cap ≠ q.head := by
    intro he
    have := (attempt_full_iff q inv).mp he
    omega
  refine ⟨{ q with buffer := q.buffer.set q.tail (some v), tail := (q.tail + 1) % q.cap },
    by rw [enqueueAttempt_eq_mod q inv, if_pos hcond], ?_, ?_, rfl, rfl⟩
  · exact ⟨inv.hcap, by simpa using inv.hlen, hh, Nat.mod_lt _ hpos⟩
  · set q' : SpscQueue α :=
      { q with buffer := q.buffer.set q.tail (some v), tail := (q.tail + 1) % q.cap }
      with hq'
    have hh' : q'.head < q'.cap := hh
    have ht' : q'.tail < q'.cap := Nat.mod_lt _ hpos
    have hocc' : occupied q' = occupied q + 1 := by
      have h1 := occupied_eq_g q hh ht
      have h2 := occupied_eq_g q' hh' ht'
      rw [show q'.head = q.head from rfl, show q'.cap = q.cap from rfl] at h2
      rcases Nat.lt_or_ge (q.tail + 1) q.cap with hlt | hge
      · rw [show q'.tail = (q.tail + 1) % q.cap from rfl, Nat.mod_eq_of_lt hlt] at h2
        split at h1 <;> split at h2 <;> omega
      · rw [show q'.tail = (q.tail + 1) % q.cap from rfl,
          show q.tail + 1 = q.cap by omega, Nat.mod_self] at h2
        split at h1 <;> split at h2 <;> omega
    have htailidx : (q.head + occupied q) % q.cap = q.tail := head_add_occupied_g q hh ht
    show toList q' = toList q ++ [some v]
    unfold toList
    rw [hocc', List.range_succ, List.map_append]
    congr 1
    · apply List.map_congr_left
      intro i hi
      rw [List.mem_range] at hi
      have hne : q.tail ≠ (q'.head + i) % q'.cap := by
        show ¬ (q.tail = (q.head + i) % q.cap)
        intro he
        have : i = occupied q := by
          refine addIdx_inj (h := q.head) (Nat.lt_of_lt_of_le hi (by omega))
            (occupied_lt_g q hpos) ?_
          rw [htailidx, ← he]
        omega
      show (q.buffer.set q.tail (some v)).getD ((q'.head + i) % q'.cap) none
          = q.buffer.getD ((q.head + i) % q.cap) none
      rw [List.getD_eq_getElem?_getD, List.getD_eq_getElem?_getD,
        List.getElem?_set_ne hne]
    · show [ (q.buffer.set q.tail (some v)).getD ((q'.head + occupied q) % q'.cap) none ]
        = [some v]
      have heq : (q'.head + occupied q) % q'.cap = q.tail := htailidx
      rw [heq, List.getD_eq_getElem?_getD,
        List.getElem?_set_self (by rw [inv.hlen]; exact ht)]
      rfl


theorem try_enqueue_spec {c : Nat} (q : SpscQueue α) (inv : Inv c q) (v : α)
    (hroom : occupied q < q.cap - 1) :
    (try_enqueue q v).2 = true ∧ Inv c (try_enqueue q v).1 ∧
      toList (try_enqueue q v).1 = toList q ++ [some v] ∧
      (try_enqueue q v).1.cap = q.cap := by
  obtain ⟨q', hq', hinv', htl, _, hcap'⟩ := enqueueAttempt_spec q inv v hroom
  have hred : try_enqueue q v = (q', true) := by
    unfold try_enqueue
    rw [hq']
  rw [hred]
  exact ⟨rfl, hinv', htl, hcap'⟩


theorem try_enqueue_fail {c : Nat} (q : SpscQueue α) (inv : Inv c q) (v : α)
    (hfull : occupied q = q.cap - 1) : try_enqueue q v = (q, false) := by
  unfold try_enqueue
  rw [enqueueAttempt_fail q inv v hfull]


theorem try_dequeue_eq_mod {c : Nat} (q : SpscQueue α) (inv : Inv c q) :
    try_dequeue q =
      if q.head ≠ q.tail then
        ({ q with buffer := q.buffer.set q.head none,
                  head := (q.head + 1) % q.cap },
         some (q.buffer.getD q.head none))
      else (q, none) := by
  simp only [try_dequeue, inv.hcap, and_mask_eq_mod]
  rw [Nat.mod_eq_of_lt (a := q.head) (inv.hcap ▸ inv.hhead)]


theorem try_dequeue_empty {c : Nat} (q : SpscQueue α) (inv : Inv c q)
    (h : q.head = q.tail) : try_dequeue q = (q, none) := by
  rw [try_dequeue_eq_mod q inv, if_neg (by simpa using h)]


theorem try_dequeue_spec {c : Nat} (q : SpscQueue α) (inv : Inv c q)
    (hne : q.head ≠ q.tail) :
    (try_dequeue q).2 = some (q.buffer.getD q.head none) ∧
      Inv c (try_dequeue q).1 ∧
      toList q = q.buffer.getD q.head none :: toList (try_dequeue q).1 ∧
      (try_dequeue q).1.cap = q.cap := by
  have hh := inv.hhead
  have ht := inv.htail
  have hpos := inv.pos_g
  have hocclt := occupied_lt_g q hpos
  have hdeq : try_dequeue q =
      ({ q with buffer := q.buffer.set q.head none, head := (q.head + 1) % q.cap },
       some (q.buffer.getD q.head none)) := by
    rw [try_dequeue_eq_mod q inv, if_pos hne]
  set q' : SpscQueue α :=
    { q with buffer := q.buffer.set q.head none, head := (q.head + 1) % q.cap }
    with hq'
  have hh' : q'.head < q'.cap := Nat.mod_lt _ hpos
  have hinv' : Inv c q' := ⟨inv.hcap, by simpa using inv.hlen, hh', ht⟩
  have hocc' : occupied q' = occupied q - 1 := by
    have h1 := occupied_eq_g q hh ht
    have h2 := occupied_eq_g q' hh' ht
    rw [show q'.tail = q.tail from rfl, show q'.cap = q.cap from rfl] at h2
    rcases Nat.lt_or_ge (q.head + 1) q.cap with hlt | hge
    · rw [show q'.head = (q.head + 1) % q.cap from rfl, Nat.mod_eq_of_lt hlt] at h2
      split at h1 <;> split at h2 <;> omega
    · rw [show q'.head = (q.head + 1) % q.cap from rfl,
        show q.head + 1 = q.cap by omega, Nat.mod_self] at h2
      split at h1 <;> split at h2 <;> omega
  have hocc : occupied q ≠ 0 := fun h0 => hne ((occupied_eq_zero_g q hh ht).mp h0)
  refine ⟨by rw [hdeq], by rw [hdeq]; exact hinv', ?_, by rw [hdeq]⟩
  rw [hdeq]
  show toList q = q.buffer.getD q.head none :: toList q'
  unfold toList
  rw [hocc',
    show occupied q = (occupied q - 1) + 1 by omega,
    List.range_succ_eq_map, List.map_cons, List.map_map]
  congr 1
  · rw [show (q.head + 0) % q.cap = q.head from by
      rw [Nat.add_zero, Nat.mod_eq_of_lt hh]]
  · apply List.map_congr_left
    intro i hi
    rw [List.mem_range] at hi
    have hidx : (q'.head + i) % q'.cap = (q.head + Nat.succ i) % q.cap := by
      show ((q.head + 1) % q.cap + i) % q.cap = _
      rw [Nat.mod_add_mod]
      congr 1
      omega
    have hne2 : q.head ≠ (q'.head + i) % q'.cap := by
      rw [hidx]
      intro he
      have h0 : (q.head + 0) % q.cap = (q.head + Nat.succ i) % q.cap := by
        rw [Nat.add_zero, Nat.mod_eq_of_lt hh]
        exact he
      have : 0 = Nat.succ i := addIdx_inj (h := q.head) hpos (by omega) h0
      omega
    show q.buffer.getD ((q.head + Nat.succ i) % q.cap) none
      = (q.buffer.set q.head none).getD ((q'.head + i) % q'.cap) none
    rw [List.getD_eq_getElem?_getD, List.getD_eq_getElem?_getD,
      List.getElem?_set_ne hne2, hidx]


theorem resize_spec {c : Nat} (q : SpscQueue α) (inv : Inv c q) (hc : c ≤ 64) :
    (resize q).cap = q.cap * 2 ∧ Inv (c + 1) (resize q) ∧
      toList (resize q) = toList q := by
  have hh := inv.hhead
  have ht := inv.htail
  have hpos := inv.pos_g
  have hocclt := occupied_lt_g q hpos
  have hres : resize q =
      { cap := q.cap * 2,
        buffer := (List.range (q.cap * 2)).map fun i =>
          if i < occupied q then q.buffer.getD ((q.head + i) &&& (q.cap - 1)) none
          else none,
        head := 0, tail := occupied q } := by
    simp only [resize]
    rw [show subMod64 q.tail q.head &&& (q.cap - 1) = occupied q from
      size_eq_occupied_g q inv hc]
  have hcap2 : q.cap * 2 = 2 ^ (c + 1) := by
    rw [inv.hcap, pow_succ]
  refine ⟨by rw [hres], ?_, ?_⟩
  · refine ⟨by rw [hres]; exact hcap2, by rw [hres]; simp, ?_, ?_⟩
    · rw [hres]
      show 0 < q.cap * 2
      omega
    · rw [hres]
      show occupied q < q.cap * 2
      omega
  · rw [hres]
    set q' : SpscQueue α :=
      { cap := q.cap * 2,
        buffer := (List.range (q.cap * 2)).map fun i =>
          if i < occupied q then q.buffer.getD ((q.head + i) &&& (q.cap - 1)) none
          else none,
        head := 0, tail := occupied q } with hq'
    have hocc' : occupied q' = occupied q := by
      show (occupied q + q.cap * 2 - 0) % (q.cap * 2) = occupied q
      rw [Nat.sub_zero, Nat.add_mod_right, Nat.mod_eq_of_lt (by omega)]
    show toList q' = toList q
    unfold toList
    rw [hocc']
    apply List.map_congr_left
    intro i hi
    rw [List.mem_range] at hi
    have hidx : (q'.head + i) % q'.cap = i := by
      show (0 + i) % (q.cap * 2) = i
      rw [Nat.zero_add, Nat.mod_eq_of_lt (by omega)]
    rw [hidx]
    show ((List.range (q.cap * 2)).map fun j =>
        if j < occupied q then q.buffer.getD ((q.head + j) &&& (q.cap - 1)) none
        else none).getD i none
      = q.buffer.getD ((q.head + i) % q.cap) none
    rw [List.getD_eq_getElem?_getD, List.getElem?_map,
      List.getElem?_range (by omega), Option.map_some', Option.getD_some,
      if_pos hi, inv.hcap, and_mask_eq_mod]


/-- After a resize of any power-of-two-capacity queue, the retried
`inner_enqueue` attempt always finds room: the C++ recursion terminates
after exactly one resize. -/

theorem resize_attempt_isSome {c : Nat} (q : SpscQueue α) (inv : Inv c q)
    (hc : c ≤ 64) (v : α) : (enqueueAttempt (resize q) v).isSome := by
  have hpos := inv.pos_g
  have hocclt := occupied_lt_g q hpos
  obtain ⟨hcap2, hinv2, htl2⟩ := resize_spec q inv hc
  have hocc2 : occupied (resize q) = occupied q := by
    rw [← toList_length_g, htl2, toList_length_g]
  obtain ⟨q', hq', _, _, _, _⟩ := enqueueAttempt_spec (resize q) hinv2 v
    (by rw [hocc2, hcap2]; omega)
  rw [hq']
  rfl


theorem enqueue_step_spec {c : Nat} (q : SpscQueue α) (inv : Inv c q)
    (hc : c ≤ 64) (v : α) :
    (enqueue q v).2 = true ∧
      toList (enqueue q v).1 = toList q ++ [some v] ∧
      ((occupied q < q.cap - 1 ∧ Inv c (enqueue q v).1 ∧
          (enqueue q v).1.cap = q.cap) ∨
        (occupied q = q.cap - 1 ∧ Inv (c + 1) (enqueue q v).1 ∧
          (enqueue q v).1.cap = q.cap * 2)) := by
  have hpos := inv.pos_g
  have hocclt := occupied_lt_g q hpos
  rcases Nat.lt_or_ge (occupied q) (q.cap - 1) with hroom | hfull
  · obtain ⟨q', hq', hinv', htl, _, hcap'⟩ := enqueueAttempt_spec q inv v hroom
    have hred : enqueue q v = (q', true) := by
      unfold enqueue
      rw [hq']
    rw [hred]
    exact ⟨rfl, htl, Or.inl ⟨hroom, hinv', hcap'⟩⟩
  · have hfull' : occupied q = q.cap - 1 := by omega
    have hfail : enqueueAttempt q v = none := enqueueAttempt_fail q inv v hfull'
    obtain ⟨hcap2, hinv2, htl2⟩ := resize_spec q inv hc
    have hocc2 : occupied (resize q) = occupied q := by
      rw [← toList_length_g, htl2, toList_length_g]
    obtain ⟨q', hq', hinv', htl, _, hcap'⟩ := enqueueAttempt_spec (resize q) hinv2 v
      (by rw [hocc2, hcap2]; omega)
    have hred : enqueue q v = (q', true) := by
      unfold enqueue
      rw [hfail, hq']
    rw [hred]
    refine ⟨rfl, ?_, Or.inr ⟨hfull', hinv', by rw [hcap', hcap2]⟩⟩
    rw [htl, htl2]


theorem enqueueAll_spec (vs : List α) :
    ∀ (c : Nat) (q : SpscQueue α), Inv c q → c ≤ 64 →
      occupied q + vs.length < 2 ^ 64 →
      (enqueueAll q vs).2 = true ∧
        ∃ c', Inv c' (enqueueAll q vs).1 ∧ c' ≤ 64 ∧
          toList (enqueueAll q vs).1 = toList q ++ vs.map some ∧
          q.cap ≤ (enqueueAll q vs).1.cap := by
  induction vs with
  | nil =>
    intro c q inv hc _
    exact ⟨rfl, c, inv, hc, by simp [enqueueAll], Nat.le_refl _⟩
  | cons v vs ih =>
    intro c q inv hc hbound
    have hpos := inv.pos_g
    have hocclt := occupied_lt_g q hpos
    have hlen : (v :: vs).length = vs.length + 1 := rfl
    rw [hlen] at hbound
    obtain ⟨hs, htl, hcase⟩ := enqueue_step_spec q inv hc v
    have hocc1 : occupied (enqueue q v).1 = occupied q + 1 := by
      rw [← toList_length_g, htl, List.length_append, toList_length_g]
      rfl
    have hnext : ∃ c₁, Inv c₁ (enqueue q v).1 ∧ c₁ ≤ 64 ∧ q.cap ≤ (enqueue q v).1.cap := by
      rcases hcase with ⟨_, hinv1, hcap1⟩ | ⟨hfull, hinv1, hcap1⟩
      · exact ⟨c, hinv1, hc, by rw [hcap1]⟩
      · refine ⟨c + 1, hinv1, ?_, by rw [hcap1]; omega⟩
        have hcaplt : q.cap < 2 ^ 64 := by omega
        have h2c : (2 : Nat) ^ c < 2 ^ 64 := inv.hcap ▸ hcaplt
        have hclt : c < 64 := by
          by_contra hge
          push_neg at hge
          have hmono : (2 : Nat) ^ 64 ≤ 2 ^ c := Nat.pow_le_pow_right (by norm_num) hge
          omega
        omega
    obtain ⟨c₁, hinv1, hc1, hcap1⟩ := hnext
    obtain ⟨hs2, c', hinv2, hc2, htl2, hcap2⟩ := ih c₁ (enqueue q v).1 hinv1 hc1
      (by rw [hocc1]; omega)
    refine ⟨?_, c', hinv2, hc2, ?_, ?_⟩
    · show ((enqueue q v).2 && (enqueueAll (enqueue q v).1 vs).2) = true
      rw [hs, hs2]
      rfl
    · show toList (enqueueAll (enqueue q v).1 vs).1 = toList q ++ (v :: vs).map some
      rw [htl2, htl, List.append_assoc]
      rfl
    · show q.cap ≤ (enqueueAll (enqueue q v).1 vs).1.cap
      omega


theorem dequeueN_spec (n : Nat) :
    ∀ (c : Nat) (q : SpscQueue α), Inv c q → occupied q = n →
      (dequeueN q n).2 = (toList q).map some ∧
        empty (dequeueN q n).1 = true := by
  induction n with
  | zero =>
    intro c q inv hocc
    have he : q.head = q.tail := (occupied_eq_zero_g q inv.hhead inv.htail).mp hocc
    constructor
    · rw [toList_eq_nil_g q he]
      rfl
    · show (decide (q.head = q.tail)) = true
      simpa using he
  | succ n ih =>
    intro c q inv hocc
    have hne : q.head ≠ q.tail := by
      intro he
      rw [(occupied_eq_zero_g q inv.hhead inv.htail).mpr he] at hocc
      omega
    obtain ⟨hval, hinv', htl, _⟩ := try_dequeue_spec q inv hne
    have hocc' : occupied (try_dequeue q).1 = n := by
      have := toList_length_g q
      rw [htl] at this
      rw [← toList_length_g]
      simp only [List.length_cons] at this
      omega
    obtain ⟨hout, hemp⟩ := ih c (try_dequeue q).1 hinv' hocc'
    constructor
    · show (try_dequeue q).2 :: (dequeueN (try_dequeue q).1 n).2 = (toList q).map some
      rw [hval, hout, htl]
      rfl
    · exact hemp


theorem construct_inv (α : Type) (c : Nat) :
    Inv c (SpscQueue.construct α (2 ^ c)) :=
  ⟨rfl, by simp [SpscQueue.construct], Nat.pos_pow_of_pos c (by norm_num),
    Nat.pos_pow_of_pos c (by norm_num)⟩


theorem toList_construct (α : Type) (c : Nat) :
    toList (SpscQueue.construct α (2 ^ c)) = [] :=
  toList_eq_nil_g _ rfl


theorem occupied_construct (α : Type) (c : Nat) :
    occupied (SpscQueue.construct α (2 ^ c)) = 0 := by
  rw [← toList_length_g, toList_construct]
  rfl


theorem tryEnqueueAll_spec {c : Nat} (vs : List α) :
    ∀ (q : SpscQueue α), Inv c q → occupied q + vs.length ≤ q.cap - 1 →
      (tryEnqueueAll q vs).2 = true ∧ Inv c (tryEnqueueAll q vs).1 ∧
        toList (tryEnqueueAll q vs).1 = toList q ++ vs.map some ∧
        (tryEnqueueAll q vs).1.cap = q.cap := by
  induction vs with
  | nil => intro q inv _; exact ⟨rfl, inv, by simp [tryEnqueueAll], rfl⟩
  | cons v vs ih =>
    intro q inv hroom
    have hlen : (v :: vs).length = vs.length + 1 := rfl
    rw [hlen] at hroom
    obtain ⟨hs, hinv', htl, hcap'⟩ := try_enqueue_spec q inv v (by omega)
    have hocc' : occupied (try_enqueue q v).1 = occupied q + 1 := by
      rw [← toList_length_g, htl, List.length_append, toList_length_g]
      rfl
    obtain ⟨hs2, hinv2, htl2, hcap2⟩ := ih (try_enqueue q v).1 hinv'
      (by rw [hcap', hocc']; omega)
    refine ⟨?_, hinv2, ?_, ?_⟩
    · show ((try_enqueue q v).2 && (tryEnqueueAll (try_enqueue q v).1 vs).2) = true
      rw [hs, hs2]
      rfl
    · show toList (tryEnqueueAll (try_enqueue q v).1 vs).1 = toList q ++ (v :: vs).map some
      rw [htl2, htl, List.append_assoc]
      rfl
    · show (tryEnqueueAll (try_enqueue q v).1 vs).1.cap = q.cap
      rw [hcap2, hcap']



end SpscQueue

namespace SpmcQueue

theorem pop_success_size (q : SpmcQueue α) (x : α)
    (h : (pop q).2 = some x) :
    size (pop q).1 = size q - 1 ∧ 1 ≤ size q := by
  simp only [pop] at h ⊢
  by_cases h1 : q.head ≤ q.tail - 1
  · rw [if_pos h1] at h ⊢
    by_cases h2 : q.head = q.tail - 1
    · rw [if_pos h2] at h ⊢
      simp only [size]
      constructor
      · split <;> split <;> omega
      · split <;> omega
    · rw [if_neg h2] at h ⊢
      simp only [size]
      constructor
      · split <;> split <;> omega
      · split <;> omega
  · rw [if_neg h1] at h
    exact absurd h (by simp)


theorem steal_success_size (q : SpmcQueue α) (x : α)
    (h : (steal q).2 = some x) :
    size (steal q).1 = size q - 1 ∧ 1 ≤ size q := by
  simp only [steal] at h ⊢
  by_cases h1 : q.head < q.tail
  · rw [if_pos h1] at h ⊢
    simp only [size]
    constructor
    · split <;> split <;> omega
    · split <;> omega
  · rw [if_neg h1] at h
    exact absurd h (by simp)


theorem try_push_counters (q : SpmcQueue α) (o : α) :
    (try_push q o).1.head = q.head ∧
      ((try_push q o).1.tail = q.tail ∨ (try_push q o).1.tail = q.tail + 1) := by
  simp only [try_push]
  by_cases h1 : q.tail - q.head ≥ q.bufferSize - 1
  · rw [if_pos h1]
    exact ⟨rfl, Or.inl rfl⟩
  · rw [if_neg h1]
    exact ⟨rfl, Or.inr rfl⟩


theorem steal_counters (q : SpmcQueue α) :
    (steal q).1.tail = q.tail ∧
      ((steal q).1.head = q.head ∨ (steal q).1.head = q.head + 1) := by
  simp only [steal]
  by_cases h1 : q.head < q.tail
  · rw [if_pos h1]
    exact ⟨rfl, Or.inr rfl⟩
  · rw [if_neg h1]
    exact ⟨rfl, Or.inl rfl⟩


theorem pop_counters (q : SpmcQueue α) :
    ((pop q).1.head = q.head ∨ (pop q).1.head = q.head + 1) ∧
      ((pop q).1.tail = q.tail ∨
        ((pop q).1.tail = q.tail - 1 ∧ q.head < q.tail - 1)) := by
  simp only [pop]
  by_cases h1 : q.head ≤ q.tail - 1
  · rw [if_pos h1]
    by_cases h2 : q.head = q.tail - 1
    · rw [if_pos h2]
      refine ⟨Or.inr rfl, Or.inl ?_⟩
      show q.tail - 1 + 1 = q.tail
      omega
    · rw [if_neg h2]
      exact ⟨Or.inl rfl, Or.inr ⟨rfl, by omega⟩⟩
  · rw [if_neg h1]
    refine ⟨Or.inl rfl, Or.inl ?_⟩
    show q.tail - 1 + 1 = q.tail
    omega



end SpmcQueue

/-- General single-threaded FIFO refinement of the Queue.h SPSC ring,
stated against the freshly constructed queue of any power-of-two
capacity. -/
theorem spsc_refines_fifo (α : Type) [Inhabited α] (d : α) (c : Nat)
    (ops : List (SPSCQueue.QOp α)) :
    SPSCQueue.runSPSC (SPSCQueue.mk α (2 ^ c) d) ops
      = SPSCQueue.runSpec (2 ^ c - 1) [] ops := by
  have h := SPSCQueue.runSPSC_refines (c := c) ops (SPSCQueue.mk α (2 ^ c) d)
    (SPSCQueue.mk_inv α c d)
  rw [SPSCQueue.toList_mk] at h
  exact h



/-! ## Claim theorems -/

/-- C1: starting from an empty `Queue.h` SPSC queue of capacity 16,
enqueue(1), enqueue(2), enqueue(3) all succeed, three subsequent dequeues
succeed and yield 1, then 2, then 3, after which `empty()` is true; and in
general any single-threaded sequence of enqueues and dequeues run against
the ring queue produces exactly the dequeue results of the ideal FIFO list
queue of capacity `2^c - 1`: dequeue returns items in exactly the order
they were enqueued. -/
theorem claim1_spsc_fifo :
    (let q0 := SPSCQueue.mk Nat 16 0
     let r1 := SPSCQueue.enqueue q0 1
     let r2 := SPSCQueue.enqueue r1.1 2
     let r3 := SPSCQueue.enqueue r2.1 3
     let d1 := SPSCQueue.dequeue r3.1
     let d2 := SPSCQueue.dequeue d1.1
     let d3 := SPSCQueue.dequeue d2.1
     r1.2 = true ∧ r2.2 = true ∧ r3.2 = true ∧
       d1.2 = some 1 ∧ d2.2 = some 2 ∧ d3.2 = some 3 ∧
       SPSCQueue.empty d3.1 = true) ∧
    (∀ (α : Type) [Inhabited α] (d : α) (c : Nat) (ops : List (SPSCQueue.QOp α)),
      SPSCQueue.runSPSC (SPSCQueue.mk α (2 ^ c) d) ops
        = SPSCQueue.runSpec (2 ^ c - 1) [] ops) := by
  refine ⟨by decide, ?_⟩
  intro α inst d c ops
  exact spsc_refines_fifo α d c ops

/-- C2: on the work-stealing deque with `BufferSize = 16` (LogSize 4) used
sequentially, 15 pushes of the distinct non-null handles 1..15 all succeed;
`pop()` then returns the most recently pushed handle 15, a following
`steal()` returns the least recently pushed remaining handle 1, and each
successful pop or steal decreases `size()` by exactly one (shown both on
the concrete run, 15 to 14 to 13, and for every queue state). -/
theorem claim2_deque_pop_steal_sizes :
    (let q0 := SpmcQueue.construct Nat 4
     let r := (List.range 15).foldl
       (fun acc i =>
         let s := SpmcQueue.try_push acc.1 (i + 1)
         (s.1, acc.2 && s.2)) (q0, true)
     let p := SpmcQueue.pop r.1
     let s := SpmcQueue.steal p.1
     r.2 = true ∧ SpmcQueue.size r.1 = 15 ∧
       p.2 = some 15 ∧ SpmcQueue.size p.1 = 14 ∧
       s.2 = some 1 ∧ SpmcQueue.size s.1 = 13 ∧
       SpmcQueue.capacity q0 = 15) ∧
    (∀ (β : Type) (q : SpmcQueue β) (x : β),
      (SpmcQueue.pop q).2 = some x →
        SpmcQueue.size (SpmcQueue.pop q).1 = SpmcQueue.size q - 1 ∧
          1 ≤ SpmcQueue.size q) ∧
    (∀ (β : Type) (q : SpmcQueue β) (x : β),
      (SpmcQueue.steal q).2 = some x →
        SpmcQueue.size (SpmcQueue.steal q).1 = SpmcQueue.size q - 1 ∧
          1 ≤ SpmcQueue.size q) := by
  refine ⟨by decide, ?_, ?_⟩
  · intro β q x h
    exact SpmcQueue.pop_success_size q x h
  · intro β q x h
    exact SpmcQueue.steal_success_size q x h

/-- C2 witness: the size-decrement clause applied to the concrete 15-item
deque of the example. -/
theorem claim2_witness :
    (let q1 := ((List.range 15).foldl
       (fun acc i =>
         let s := SpmcQueue.try_push acc.1 (i + 1)
         (s.1, acc.2 && s.2)) (SpmcQueue.construct Nat 4, true)).1
     SpmcQueue.size (SpmcQueue.pop q1).1 = SpmcQueue.size q1 - 1 ∧
       1 ≤ SpmcQueue.size q1) :=
  claim2_deque_pop_steal_sizes.2.1 Nat _ 15 (by decide)

/-- C3 counterexample: `Queue.h`'s `SPSCQueue::capacity()` returns the
slot count `Capacity` itself, not `Capacity - 1`: for the queue of 16
slots it reports 16, refuting the claim that every variant reports
`N - 1`. -/
theorem claim3_counterexample :
    ¬ SPSCQueue.capacity (SPSCQueue.mk Nat 16 0) = 16 - 1 := by
  decide

/-- C3 amended: `cpputils::SpscQueue::capacity()` returns `N - 1` and the
work-stealing `SpmcQueue::capacity()` returns `N - 1 = 2^LogSize - 1`, but
the `Queue.h` `SPSCQueue::capacity()` and `SPMCQueue::capacity()` return
the slot count `N` itself (their usable capacity is still `N - 1`). -/
theorem claim3_amended_capacities :
    (∀ (β : Type) (q : RingQueue β),
      SPSCQueue.capacity q = q.cap ∧ SPMCQueue.capacity q = q.cap) ∧
    (∀ (β : Type) (p : SpscQueue β), SpscQueue.capacity p = p.cap - 1) ∧
    (∀ (β : Type) (dq : SpmcQueue β),
      SpmcQueue.capacity dq = 2 ^ dq.logSize - 1) := by
  refine ⟨fun β q => ⟨rfl, rfl⟩, fun β p => rfl, fun β dq => ?_⟩
  unfold SpmcQueue.capacity SpmcQueue.bufferSize
  have h : ((2 : Int) ^ dq.logSize) = ((2 ^ dq.logSize : Nat) : Int) := by
    push_cast
    ring
  rw [h]
  omega

/-- C4: for every power-of-two capacity `C = 2^c` (`c ≤ 64`, the size_t
range) and every value list of length `k ≤ C - 1`: from an empty SPSC
queue, all `k` enqueues succeed and `size()` then returns `k`; and when
`k = C - 1` (the queue is full) the next, `C`-th, enqueue attempt returns
false.  Shown for the `Queue.h` `SPSCQueue` and for
`cpputils::SpscQueue`'s allocation-free `try_enqueue` path. -/
theorem claim4_fill_size_full {α : Type} [Inhabited α] (d : α) (c : Nat)
    (vs : List α) (hc : c ≤ 64) (hk : vs.length ≤ 2 ^ c - 1) :
    (SPSCQueue.enqueueList (SPSCQueue.mk α (2 ^ c) d) vs).2 = true ∧
    SPSCQueue.size (SPSCQueue.enqueueList (SPSCQueue.mk α (2 ^ c) d) vs).1
      = vs.length ∧
    (vs.length = 2 ^ c - 1 → ∀ v,
      SPSCQueue.enqueue (SPSCQueue.enqueueList (SPSCQueue.mk α (2 ^ c) d) vs).1 v
        = ((SPSCQueue.enqueueList (SPSCQueue.mk α (2 ^ c) d) vs).1, false)) ∧
    (SpscQueue.tryEnqueueAll (SpscQueue.construct α (2 ^ c)) vs).2 = true ∧
    SpscQueue.size (SpscQueue.tryEnqueueAll (SpscQueue.construct α (2 ^ c)) vs).1
      = vs.length ∧
    (vs.length = 2 ^ c - 1 → ∀ v,
      SpscQueue.try_enqueue
          (SpscQueue.tryEnqueueAll (SpscQueue.construct α (2 ^ c)) vs).1 v
        = ((SpscQueue.tryEnqueueAll (SpscQueue.construct α (2 ^ c)) vs).1,
           false)) := by
  have hocc0 := SPSCQueue.occupied_mk α c d
  obtain ⟨hs, hinv', htl, hcap'⟩ := SPSCQueue.enqueueList_spec vs
    (SPSCQueue.mk α (2 ^ c) d) (SPSCQueue.mk_inv α c d)
    (by rw [hocc0]; exact by simpa using hk)
  have hocc' : SPSCQueue.occupied
      (SPSCQueue.enqueueList (SPSCQueue.mk α (2 ^ c) d) vs).1 = vs.length := by
    rw [← SPSCQueue.toList_length, htl, SPSCQueue.toList_mk]
    simp
  have hocc0g := SpscQueue.occupied_construct α c
  obtain ⟨hsg, hinvg, htlg, hcapg⟩ := SpscQueue.tryEnqueueAll_spec vs
    (SpscQueue.construct α (2 ^ c)) (SpscQueue.construct_inv α c)
    (by rw [hocc0g]; exact by simpa using hk)
  have hoccg : SpscQueue.occupied
      (SpscQueue.tryEnqueueAll (SpscQueue.construct α (2 ^ c)) vs).1
        = vs.length := by
    rw [← SpscQueue.toList_length_g, htlg, SpscQueue.toList_construct,
      List.nil_append, List.length_map]
  refine ⟨hs, ?_, ?_, hsg, ?_, ?_⟩
  · rw [SPSCQueue.size_eq_occupied _ hinv' hc, hocc']
  · intro hfullLen v
    exact SPSCQueue.enqueue_fail _ hinv' v
      (by rw [hocc', hcap']; exact by simpa using hfullLen)
  · rw [SpscQueue.size_eq_occupied_g _ hinvg hc, hoccg]
  · intro hfullLen v
    exact SpscQueue.try_enqueue_fail _ hinvg v
      (by rw [hoccg, hcapg]; exact by simpa using hfullLen)

/-- C4 witness: capacity 16 (`c = 4`), the 15 values 0..14: all enqueues
succeed, the size is 15, and the 16th enqueue attempt fails, on both SPSC
implementations. -/
theorem claim4_witness :
    (SPSCQueue.enqueueList (SPSCQueue.mk Nat (2 ^ 4) 0) (List.range 15)).2
      = true ∧
    SPSCQueue.size
        (SPSCQueue.enqueueList (SPSCQueue.mk Nat (2 ^ 4) 0) (List.range 15)).1
      = (List.range 15).length ∧
    SPSCQueue.enqueue
        (SPSCQueue.enqueueList (SPSCQueue.mk Nat (2 ^ 4) 0) (List.range 15)).1 99
      = ((SPSCQueue.enqueueList (SPSCQueue.mk Nat (2 ^ 4) 0) (List.range 15)).1,
         false) ∧
    (SpscQueue.tryEnqueueAll (SpscQueue.construct Nat (2 ^ 4))
        (List.range 15)).2 = true ∧
    SpscQueue.size (SpscQueue.tryEnqueueAll (SpscQueue.construct Nat (2 ^ 4))
        (List.range 15)).1 = (List.range 15).length ∧
    SpscQueue.try_enqueue (SpscQueue.tryEnqueueAll
        (SpscQueue.construct Nat (2 ^ 4)) (List.range 15)).1 99
      = ((SpscQueue.tryEnqueueAll (SpscQueue.construct Nat (2 ^ 4))
          (List.range 15)).1, false) := by
  have h := claim4_fill_size_full (α := Nat) 0 4 (List.range 15)
    (by norm_num) (by decide)
  exact ⟨h.1, h.2.1, h.2.2.1 (by decide) 99, h.2.2.2.1, h.2.2.2.2.1,
    h.2.2.2.2.2 (by decide) 99⟩

/-- C5: construction with slot count 0 does NOT fail in `Queue.h`: the
power-of-two test `Capacity & (Capacity - 1)` evaluates to 0 for
`Capacity = 0`, so neither ring-queue constructor throws, even though 0 is
not a power of two (every genuine power of two is accepted and a
non-power such as 12 is rejected, and the `cpputils::SpscQueue`
constructor's own assertion does reject 0 as the spec requires). -/
theorem claim5_zero_capacity_bug :
    SPSCQueue.ctorThrows 0 = false ∧ SPMCQueue.ctorThrows 0 = false ∧
    SpscQueue.ctorAssertOk 0 = false ∧
    (∀ k : Nat, (0 : Nat) ≠ 2 ^ k) ∧
    (∀ k : Nat, SPSCQueue.ctorThrows (2 ^ k) = false) ∧
    SPSCQueue.ctorThrows 12 = true := by
  refine ⟨by decide, by decide, by decide, ?_, ?_, by decide⟩
  · intro k h
    have hpos := Nat.pos_pow_of_pos k (show 0 < 2 by norm_num)
    omega
  · intro k
    have h0 : 2 ^ k &&& (2 ^ k - 1) = 0 := by
      rw [and_mask_eq_mod, Nat.mod_self]
    simp [SPSCQueue.ctorThrows, h0]

/-- C6 counterexample: the stored counters of the ring queues are kept
modulo `Capacity` and therefore do decrease on wrap-around: on a capacity-2
`Queue.h` SPSC queue, after enqueue, dequeue, enqueue the stored `tail`
moves from 1 to 0 on the second (successful) enqueue, which is not the
deque's pop protocol. -/
theorem claim6_counterexample :
    (let q0 := SPSCQueue.mk Nat 2 0
     let r1 := SPSCQueue.enqueue q0 10
     let d1 := SPSCQueue.dequeue r1.1
     let r2 := SPSCQueue.enqueue d1.1 20
     r1.2 = true ∧ d1.2 = some 10 ∧ r2.2 = true ∧
       d1.1.tail = 1 ∧ r2.1.tail = 0 ∧ r2.1.tail < d1.1.tail) := by
  decide

/-- C6 amended: in the work-stealing deque the counters are genuinely
monotone: `try_push` never changes `head` and only increments `tail`;
`steal` never changes `tail` and only increments `head`; `pop` only
increments `head`, and leaves `tail` decremented (by exactly one) only when
it takes an item from a non-contended position, restoring it otherwise.
In the ring variants (`Queue.h` SPSC and `cpputils::SpscQueue`) the stored
counters instead advance by one modulo the slot count on every successful
operation, so the stored values decrease when wrapping from `N-1` to 0. -/
theorem claim6_amended_monotonicity :
    (∀ (β : Type) (q : SpmcQueue β) (o : β),
      (SpmcQueue.try_push q o).1.head = q.head ∧
        ((SpmcQueue.try_push q o).1.tail = q.tail ∨
          (SpmcQueue.try_push q o).1.tail = q.tail + 1)) ∧
    (∀ (β : Type) (q : SpmcQueue β),
      (SpmcQueue.steal q).1.tail = q.tail ∧
        ((SpmcQueue.steal q).1.head = q.head ∨
          (SpmcQueue.steal q).1.head = q.head + 1)) ∧
    (∀ (β : Type) (q : SpmcQueue β),
      ((SpmcQueue.pop q).1.head = q.head ∨
        (SpmcQueue.pop q).1.head = q.head + 1) ∧
        ((SpmcQueue.pop q).1.tail = q.tail ∨
          ((SpmcQueue.pop q).1.tail = q.tail - 1 ∧ q.head < q.tail - 1))) ∧
    (∀ (β : Type) [Inhabited β] (c : Nat) (q : RingQueue β) (v : β),
      SPSCQueue.Inv c q →
        ((SPSCQueue.enqueue q v).2 = true →
          (SPSCQueue.enqueue q v).1.tail = (q.tail + 1) % q.cap) ∧
        ((SPSCQueue.dequeue q).2.isSome = true →
          (SPSCQueue.dequeue q).1.head = (q.head + 1) % q.cap)) ∧
    (∀ (β : Type) (c : Nat) (q : SpscQueue β) (v : β),
      SpscQueue.Inv c q →
        ((SpscQueue.try_enqueue q v).2 = true →
          (SpscQueue.try_enqueue q v).1.tail = (q.tail + 1) % q.cap) ∧
        ((SpscQueue.try_dequeue q).2.isSome = true →
          (SpscQueue.try_dequeue q).1.head = (q.head + 1) % q.cap)) := by
  refine ⟨?_, ?_, ?_, ?_, ?_⟩
  · intro β q o
    exact SpmcQueue.try_push_counters q o
  · intro β q
    exact SpmcQueue.steal_counters q
  · intro β q
    exact SpmcQueue.pop_counters q
  · intro β inst c q v inv
    constructor
    · rw [SPSCQueue.enqueue_eq_mod q inv.hcap]
      by_cases hcond : (q.tail + 1) % q.cap = q.head
      · rw [if_pos hcond]
        intro h
        exact absurd h (by simp)
      · rw [if_neg hcond]
        intro _
        rfl
    · rw [SPSCQueue.dequeue_eq_mod q inv.hcap]
      by_cases hcond : q.head = q.tail
      · rw [if_pos hcond]
        intro h
        exact absurd h (by simp)
      · rw [if_neg hcond]
        intro _
        rfl
  · intro β c q v inv
    constructor
    · unfold SpscQueue.try_enqueue
      rw [SpscQueue.enqueueAttempt_eq_mod q inv]
      by_cases hcond : (q.tail + 1) % q.cap ≠ q.head
      · rw [if_pos hcond]
        intro _
        rfl
      · rw [if_neg hcond]
        intro h
        exact absurd h (by simp)
    · rw [SpscQueue.try_dequeue_eq_mod q inv]
      by_cases hcond : q.head ≠ q.tail
      · rw [if_pos hcond]
        intro _
        rfl
      · rw [if_neg hcond]
        intro h
        exact absurd h (by simp)

/-- C6 witness: the modulo-advance clauses applied to concrete capacity-2
queues (whose invariants hold by construction). -/
theorem claim6_witness :
    (SPSCQueue.enqueue (SPSCQueue.mk Nat 2 0) 7).1.tail
        = ((SPSCQueue.mk Nat 2 0).tail + 1) % (SPSCQueue.mk Nat 2 0).cap ∧
    (SpscQueue.try_enqueue (SpscQueue.construct Nat 2) 7).1.tail
        = ((SpscQueue.construct Nat 2).tail + 1) % (SpscQueue.construct Nat 2).cap := by
  constructor
  · exact (claim6_amended_monotonicity.2.2.2.1 Nat 1 (SPSCQueue.mk Nat 2 0) 7
      (SPSCQueue.mk_inv Nat 1 0)).1 (by decide)
  · exact (claim6_amended_monotonicity.2.2.2.2 Nat 1 (SpscQueue.construct Nat 2) 7
      (SpscQueue.construct_inv Nat 1)).1 (by decide)

/-- C7: on the growable `cpputils::SpscQueue` of initial capacity
`C0 = 2^c`, enqueuing `m > C0 - 1` values through the allocation-permitted
path succeeds for every value; the capacity grows (each `resize()` exactly
doubles `capacity_`, and the final capacity is at least `2 * C0`); and a
full drain of `m` `try_dequeue` calls afterwards yields exactly the `m`
values in insertion order, none lost or duplicated, leaving the queue
empty.  The bound `m < 2^64` keeps the modelled `size_t` arithmetic in
range. -/
theorem claim7_growable_drain (α : Type) (c : Nat) (vs : List α)
    (hc : c ≤ 64) (hlen : vs.length < 2 ^ 64) (hgrow : 2 ^ c - 1 < vs.length) :
    (SpscQueue.enqueueAll (SpscQueue.construct α (2 ^ c)) vs).2 = true ∧
    2 * 2 ^ c ≤ (SpscQueue.enqueueAll (SpscQueue.construct α (2 ^ c)) vs).1.cap ∧
    (∀ (β : Type) (p : SpscQueue β), (SpscQueue.resize p).cap = p.cap * 2) ∧
    (SpscQueue.dequeueN (SpscQueue.enqueueAll (SpscQueue.construct α (2 ^ c)) vs).1
        vs.length).2 = vs.map (fun v => some (some v)) ∧
    SpscQueue.empty (SpscQueue.dequeueN
        (SpscQueue.enqueueAll (SpscQueue.construct α (2 ^ c)) vs).1 vs.length).1
      = true := by
  have inv0 := SpscQueue.construct_inv α c
  have hocc0 := SpscQueue.occupied_construct α c
  obtain ⟨hs, c', hinv', hc', htl', hcaple⟩ :=
    SpscQueue.enqueueAll_spec vs c (SpscQueue.construct α (2 ^ c)) inv0 hc
      (by rw [hocc0]; omega)
  rw [SpscQueue.toList_construct, List.nil_append] at htl'
  have hocc' : SpscQueue.occupied (SpscQueue.enqueueAll (SpscQueue.construct α (2 ^ c)) vs).1
      = vs.length := by
    rw [← SpscQueue.toList_length_g, htl', List.length_map]
  have hcap' : 2 * 2 ^ c ≤ (SpscQueue.enqueueAll (SpscQueue.construct α (2 ^ c)) vs).1.cap := by
    have hlt := SpscQueue.occupied_lt_g _ hinv'.pos_g
    rw [hocc', hinv'.hcap] at hlt
    have hcc : c < c' := by
      by_contra hge
      push_neg at hge
      have : (2 : Nat) ^ c' ≤ 2 ^ c := Nat.pow_le_pow_right (by norm_num) hge
      have h2c : (0 : Nat) < 2 ^ c := Nat.pos_pow_of_pos c (by norm_num)
      omega
    have : (2 : Nat) ^ (c + 1) ≤ 2 ^ c' := Nat.pow_le_pow_right (by norm_num) (by omega)
    rw [hinv'.hcap]
    calc 2 * 2 ^ c = 2 ^ (c + 1) := by rw [pow_succ]; ring
    _ ≤ 2 ^ c' := this
  obtain ⟨hdrain, hemp⟩ := SpscQueue.dequeueN_spec vs.length c'
    (SpscQueue.enqueueAll (SpscQueue.construct α (2 ^ c)) vs).1 hinv' hocc'
  refine ⟨hs, hcap', fun β p => rfl, ?_, hemp⟩
  rw [hdrain, htl', List.map_map]
  rfl

/-- C7 witness: initial capacity 2, the three values 1, 2, 3: growth is
forced, capacity at least doubles, and the drain returns 1, 2, 3. -/
theorem claim7_witness :
    (SpscQueue.enqueueAll (SpscQueue.construct Nat (2 ^ 1)) [1, 2, 3]).2
      = true ∧
    2 * 2 ^ 1 ≤
      (SpscQueue.enqueueAll (SpscQueue.construct Nat (2 ^ 1)) [1, 2, 3]).1.cap ∧
    (∀ (β : Type) (p : SpscQueue β), (SpscQueue.resize p).cap = p.cap * 2) ∧
    (SpscQueue.dequeueN
        (SpscQueue.enqueueAll (SpscQueue.construct Nat (2 ^ 1)) [1, 2, 3]).1
        ([1, 2, 3] : List Nat).length).2
      = ([1, 2, 3] : List Nat).map (fun v => some (some v)) ∧
    SpscQueue.empty (SpscQueue.dequeueN
        (SpscQueue.enqueueAll (SpscQueue.construct Nat (2 ^ 1)) [1, 2, 3]).1
        ([1, 2, 3] : List Nat).length).1 = true :=
  claim7_growable_drain Nat 1 [1, 2, 3] (by norm_num) (by norm_num) (by norm_num)

/-- C9: in `Queue.h`'s SPMC queue, `steal` and `dequeue` are the same
operation: on every queue state they return the same result and leave the
same state (their bodies are textually identical). -/
theorem claim9_steal_eq_dequeue :
    ∀ (β : Type) [Inhabited β] (q : RingQueue β),
      SPMCQueue.steal q = SPMCQueue.dequeue q := by
  intro β inst q
  rfl

/-- C10: the interning pool keys entries solely on the 32-bit FNV-1a hash
and never compares string contents: if `s` is interned and alive, then for
any different text `t` with the same hash, `intern(t, hash)` returns the
existing handle carrying `s`'s text (the pool unchanged), and
`isStringIntern(t)` reports true although `t` was never interned. -/
theorem claim10_intern_hash_only (pool : StringPool.Pool) (s t : Text)
    (halive : pool.lookup (fnv1a s) = some s) (hcol : fnv1a t = fnv1a s)
    (hne : t ≠ s) :
    StringPool.intern pool t (fnv1a t) = (pool, s) ∧
      StringPool.isStringIntern pool t = true := by
  have hrt : fnv1a_runtime t = fnv1a t := rfl
  constructor
  · unfold StringPool.intern
    rw [hcol, halive]
  · unfold StringPool.isStringIntern StringPool.getStringByHash
    rw [hrt, hcol, halive]
    rfl

/-- C10 witness: the classic 32-bit FNV-1a collision pair "costarring" and
"liquid" (as byte lists): with "costarring" interned, interning "liquid"
returns the handle to "costarring" and `isStringIntern "liquid"` is
true. -/
theorem claim10_witness :
    StringPool.intern
        [(fnv1a [99, 111, 115, 116, 97, 114, 114, 105, 110, 103],
          [99, 111, 115, 116, 97, 114, 114, 105, 110, 103])]
        [108, 105, 113, 117, 105, 100]
        (fnv1a [108, 105, 113, 117, 105, 100])
      = ([(fnv1a [99, 111, 115, 116, 97, 114, 114, 105, 110, 103],
           [99, 111, 115, 116, 97, 114, 114, 105, 110, 103])],
         [99, 111, 115, 116, 97, 114, 114, 105, 110, 103]) ∧
    StringPool.isStringIntern
        [(fnv1a [99, 111, 115, 116, 97, 114, 114, 105, 110, 103],
          [99, 111, 115, 116, 97, 114, 114, 105, 110, 103])]
        [108, 105, 113, 117, 105, 100] = true :=
  claim10_intern_hash_only _ _ _ (by decide) (by decide) (by decide)

end CppUtils
